import Mathlib

/-!
# Secure EpiLinker — verification of the linkage-core specification

Shallow embedding of the C++ sources of the Secure EpiLinker linkage core
(`epilink_input.cpp`, `secure_epilinker.cpp`) and proofs about the embedded
definitions.  `size_t` arithmetic is modelled as `Nat` with explicit
reduction modulo `2 ^ 64`; `double` values (weights, thresholds) are
modelled as `ℚ`; C++ exceptions are modelled as `Except SelError`.
-/

namespace SEL

/-- The modulus of C++ `size_t` / `unsigned long long` arithmetic (64-bit). -/
def SIZE_MOD : ℕ := 2 ^ 64

/-- Wrapping `size_t` subtraction: `a - b` on 64-bit unsigned integers. -/
def wsub (a b : ℕ) : ℕ := (a % SIZE_MOD + (SIZE_MOD - b % SIZE_MOD)) % SIZE_MOD

/-- Wrapping `size_t` addition: `a + b` on 64-bit unsigned integers. -/
def wadd (a b : ℕ) : ℕ := (a % SIZE_MOD + b % SIZE_MOD) % SIZE_MOD

/-- Auxiliary loop for `ceil_log2`: increase `k` until `2 ^ k ≥ n`. -/
def ceil_log2_go : ℕ → ℕ → ℕ → ℕ
  | 0, _, k => k
  | fuel + 1, n, k => if n ≤ 2 ^ k then k else ceil_log2_go fuel n (k + 1)

/-- Modelled from the spec: `ceil_log2` lives in `math.h`, which is not among
the sources.  Per the spec (§4.1) it returns the smallest `k` with `2^k ≥ n`.
Since `2 ^ n ≥ n`, fuel `n` suffices for the search loop. -/
def ceil_log2 (n : ℕ) : ℕ := ceil_log2_go n n 0

/-- Modelled from the spec: the `min1` variant of `ceil_log2` (`math.h`, not
among the sources) "by convention returns 1 for `n ≤ 1`" (§4.1), i.e. its
result is at least 1. -/
def ceil_log2_min1 (n : ℕ) : ℕ := max 1 (ceil_log2 n)

/-- `hw_size` from `epilink_input.cpp:172`: number of bits needed to hold the
hamming weight (popcount) of a payload of `size` bits. -/
def hw_size (size : ℕ) : ℕ := ceil_log2_min1 (size + 1)

/-- `llround` of C99/C++: round to nearest integer, halves away from zero. -/
def llround (x : ℚ) : ℤ := if x < 0 then -(⌊-x + 1/2⌋) else ⌊x + 1/2⌋

/-- `rescale_weight` from `epilink_input.cpp:167`: `llround((weight/max_weight)
* ((1 << prec) - 1))`.  The C++ double computation is modelled exactly over ℚ. -/
def rescale_weight (weight : ℚ) (prec : ℕ) (max_weight : ℚ) : ℤ :=
  llround ((weight / max_weight) * ((2 : ℚ) ^ prec - 1))

/-- `FieldComparator` from the (absent) header, as used by the sources:
`DICE` (bitmask / set similarity) and `BINARY` (equality). -/
inductive FieldComparator where
  | DICE
  | BINARY
deriving DecidableEq, Repr

/-- `ML_Field` data relevant to the linkage core: weight (a C++ `double`,
modelled as ℚ), comparator and payload bit size. -/
structure ML_Field where
  name : String
  weight : ℚ
  comparator : FieldComparator
  bitsize : ℕ
deriving DecidableEq, Repr

/-- The C++ exceptions thrown by the embedded code paths:
`std::invalid_argument` (the spec calls the precision case `PrecisionOverflow`
and the group cases `InvalidConfig`), `std::out_of_range` (from `map::at`),
a failing `assert`, and `std::runtime_error`. -/
inductive SelError where
  | invalidArgument
  | outOfRange
  | assertFail
  | runtimeError
deriving DecidableEq, Repr

/-- `EpilinkConfig` (stored members relevant to the core). -/
structure EpilinkConfig where
  fields : List (String × ML_Field)
  exchange_groups : List (List String)
  threshold : ℚ
  tthreshold : ℚ
  matching_mode : Bool
  bitlen : ℕ
  nfields : ℕ
  max_weight : ℚ
  dice_prec : ℕ
  weight_prec : ℕ
deriving DecidableEq, Repr

/-- Modelled from the spec: `sel::max_element` (in `util.h`, not among the
sources) projects each map entry to its weight and takes the maximum;
the field map is non-empty in every meaningful configuration. -/
def maxWeightOf : List (String × ML_Field) → ℚ
  | [] => 0
  | f :: rest => rest.foldl (fun m g => max m g.2.weight) f.2.weight

/-- The `max_bm_size` loop of the `EpilinkConfig` constructor
(`epilink_input.cpp:48`): largest bitsize among DICE-compared fields. -/
def maxBmSize (fields : List (String × ML_Field)) : ℕ :=
  fields.foldl
    (fun m f => if f.2.comparator = FieldComparator.DICE then max m f.2.bitsize else m) 0

/-- Key lookup in the field map (`std::map::at`, `none` models
`std::out_of_range`). -/
def lookupField (fields : List (String × ML_Field)) (n : String) : Option ML_Field :=
  fields.lookup n

/-- The inner loop of the exchange-group sanity check
(`epilink_input.cpp:80`–`101`): for each name of the group, first the
duplicate check against the accumulated `xgunion`, then the `fields.at`
lookup, then the comparator and bitsize comparisons against `f0`.
On success returns the enlarged `xgunion`. -/
def checkGroupFields (fields : List (String × ML_Field)) (f0 : ML_Field) :
    List String → List String → Except SelError (List String)
  | xg, [] => .ok xg
  | xg, fname :: rest =>
    if fname ∈ xg then .error .invalidArgument
    else
      match lookupField fields fname with
      | none => .error .outOfRange
      | some f =>
        if f.comparator ≠ f0.comparator then .error .invalidArgument
        else if f.bitsize ≠ f0.bitsize then .error .invalidArgument
        else checkGroupFields fields f0 (fname :: xg) rest

/-- The outer loop of the exchange-group sanity check
(`epilink_input.cpp:77`–`102`).  For each group, `f0` is bound to
`fields.at(*group.cbegin())` (for an empty group the source dereferences the
end iterator; we model that as the lookup failure it is in practice). -/
def checkGroups (fields : List (String × ML_Field)) :
    List String → List (List String) → Except SelError (List String)
  | xg, [] => .ok xg
  | _, [] :: _ => .error .outOfRange
  | xg, (g0 :: gr) :: gs =>
    match lookupField fields g0 with
    | none => .error .outOfRange
    | some f0 =>
      match checkGroupFields fields f0 xg (g0 :: gr) with
      | .error e => .error e
      | .ok xg' => checkGroups fields xg' gs

/-- The safe-mode dice precision (`epilink_input.cpp:64`):
`dice_prec = (16 - 1 - hw_size(max_bm_size))` in `size_t` arithmetic. -/
def safeDicePrec (fields : List (String × ML_Field)) : ℕ :=
  wsub (16 - 1) (hw_size (maxBmSize fields))

/-- `ceil_log2(nfields * nfields)` as computed by the sources
(the product is a `size_t` product). -/
def logNSq (nfields : ℕ) : ℕ := ceil_log2 (nfields * nfields % SIZE_MOD)

/-- The safe-mode weight precision (`epilink_input.cpp:65`):
`(bitlen - ceil_log2(nfields*nfields) - dice_prec) / 2` in `size_t`
arithmetic. -/
def safeWeightPrec (fields : List (String × ML_Field)) (bitlen nfields : ℕ) : ℕ :=
  wsub (wsub bitlen (logNSq nfields)) (safeDicePrec fields) / 2

/-- The `assert` of `epilink_input.cpp:69`:
`dice_prec + 2*weight_prec + ceil_log2(nfields*nfields) <= bitlen`,
every operation in `size_t` arithmetic. -/
def precAssertOk (dice_prec weight_prec nfields bitlen : ℕ) : Prop :=
  wadd (wadd dice_prec (2 * weight_prec)) (logNSq nfields) ≤ bitlen

instance (d w n b : ℕ) : Decidable (precAssertOk d w n b) := by
  unfold precAssertOk; infer_instance

/-- The `EpilinkConfig` constructor (`epilink_input.cpp:32`–`103`): member
initialisation, the safe-mode precision planner, the overflow `assert`, and
the exchange-group sanity checks, in source order. -/
def mkEpilinkConfig (fields : List (String × ML_Field))
    (exchange_groups : List (List String)) (threshold tthreshold : ℚ)
    (matching_mode : Bool) (bitlen : ℕ) : Except SelError EpilinkConfig :=
  if precAssertOk (safeDicePrec fields)
      (safeWeightPrec fields (bitlen % SIZE_MOD) fields.length)
      fields.length (bitlen % SIZE_MOD) then
    match checkGroups fields [] exchange_groups with
    | .error e => .error e
    | .ok _ =>
      .ok { fields := fields, exchange_groups := exchange_groups,
            threshold := threshold, tthreshold := tthreshold,
            matching_mode := matching_mode, bitlen := bitlen % SIZE_MOD,
            nfields := fields.length, max_weight := maxWeightOf fields,
            dice_prec := safeDicePrec fields,
            weight_prec := safeWeightPrec fields (bitlen % SIZE_MOD) fields.length }
  else .error .assertFail

/-- `EpilinkConfig::set_precisions` (`epilink_input.cpp:105`–`117`): check the
bit budget (in `size_t` arithmetic) and, if it holds, store the new
precisions.  The thrown `std::invalid_argument` is the spec's
`PrecisionOverflow`. -/
def set_precisions (cfg : EpilinkConfig) (dice_prec_ weight_prec_ : ℕ) :
    Except SelError EpilinkConfig :=
  if wadd (wadd (dice_prec_ % SIZE_MOD) (2 * (weight_prec_ % SIZE_MOD)))
      (logNSq cfg.nfields) > cfg.bitlen then
    .error .invalidArgument
  else
    .ok { cfg with dice_prec := dice_prec_ % SIZE_MOD,
                   weight_prec := weight_prec_ % SIZE_MOD }

/-- `EpilinkConfig::set_ideal_precision` (`epilink_input.cpp:119`–`132`):
`bits_av = bitlen - ceil_log2(nfields*nfields)` (in `size_t` arithmetic) is
divided by three; the remainder-1 case increments `dice_prec`, the
remainder-2 case increments `weight_prec`, and the result is handed to
`set_precisions`. -/
def set_ideal_precision (cfg : EpilinkConfig) : Except SelError EpilinkConfig :=
  if wsub cfg.bitlen (logNSq cfg.nfields) % 3 = 1 then
    set_precisions cfg (wsub cfg.bitlen (logNSq cfg.nfields) / 3 + 1)
      (wsub cfg.bitlen (logNSq cfg.nfields) / 3)
  else if wsub cfg.bitlen (logNSq cfg.nfields) % 3 = 2 then
    set_precisions cfg (wsub cfg.bitlen (logNSq cfg.nfields) / 3)
      (wsub cfg.bitlen (logNSq cfg.nfields) / 3 + 1)
  else
    set_precisions cfg (wsub cfg.bitlen (logNSq cfg.nfields) / 3)
      (wsub cfg.bitlen (logNSq cfg.nfields) / 3)

/-! ## Secure circuit constants and outputs (`secure_epilinker.cpp`) -/

/-- The threshold constants of `SELCircuit::set_constants`
(`secure_epilinker.cpp:310`–`311`): `CircUnit T = threshold * (1 << dice_prec)`
— a C++ `double`-to-unsigned conversion, i.e. truncation toward zero of
`threshold * 2^dice_prec` (thresholds are non-negative). -/
def threshold_const (threshold : ℚ) (dice_prec : ℕ) : ℕ :=
  (⌊threshold * (2 : ℚ) ^ dice_prec⌋).toNat

/-- The threshold comparison of `SELCircuit::build_circuit`
(`secure_epilinker.cpp:224`–`228`): the arithmetic product `T * den` is
computed modulo `2^bitlen` (the share width) and compared against the
(`bitlen`-bit) numerator: `match = threshold_weight < b_sum_field_weight`. -/
def match_bit (bitlen T num den : ℕ) : Bool :=
  decide ((T * den) % 2 ^ bitlen < num % 2 ^ bitlen)

/-- The rescaled average weight of `SELCircuit::field_weight`
(`secure_epilinker.cpp:508`–`510`):
`rescale_weight((fleft.weight + fright.weight)/2, cfg.weight_prec,
cfg.max_weight)`. -/
def field_weight_const (cfg : EpilinkConfig) (fleft fright : ML_Field) : ℤ :=
  rescale_weight ((fleft.weight + fright.weight) / 2) cfg.weight_prec cfg.max_weight

/-! ## Engine facade (`secure_epilinker.cpp:554`–`637`)

Only the lifecycle flags `is_built` / `is_setup` are engine state in the
sources; the ABY party and the circuit builder are the external backend. -/

/-- The lifecycle state of `SecureEpilinker`. -/
structure SecureEpilinker where
  is_built : Bool
  is_setup : Bool
deriving DecidableEq, Repr

/-- `SecureEpilinker::build_circuit` (`secure_epilinker.cpp:568`–`573`): the
`nvals` argument is ignored ("nvals is currently ignored as nvals is just
taken from EpilinkInputs") and the built flag is set; nothing can fail. -/
def build_circuit (e : SecureEpilinker) (_nvals : ℕ) : SecureEpilinker :=
  { e with is_built := true }

/-- `SecureEpilinker::run_setup_phase` (`secure_epilinker.cpp:575`–`580`):
requires the built flag, sets the setup flag. -/
def run_setup_phase (e : SecureEpilinker) : Except SelError SecureEpilinker :=
  if e.is_built then .ok { e with is_setup := true } else .error .runtimeError

/-- `SecureEpilinker::run_circuit` (`secure_epilinker.cpp:614`–`631`): builds
and executes the circuit and clears the setup flag (`is_setup = false`);
the built flag is not touched. -/
def run_circuit (e : SecureEpilinker) : SecureEpilinker :=
  { e with is_setup := false }

/-- `SecureEpilinker::run_as_client` (`secure_epilinker.cpp:582`–`590`): if
the setup flag is clear, implicitly run the setup phase (which fails unless
built), then run the circuit. -/
def run_as_client (e : SecureEpilinker) : Except SelError SecureEpilinker := do
  let e1 ← if e.is_setup then .ok e else run_setup_phase e
  .ok (run_circuit e1)

/-- `SecureEpilinker::run_as_server` (`secure_epilinker.cpp:592`–`600`):
identical lifecycle behaviour to `run_as_client`. -/
def run_as_server (e : SecureEpilinker) : Except SelError SecureEpilinker := do
  let e1 ← if e.is_setup then .ok e else run_setup_phase e
  .ok (run_circuit e1)

/-! ## Claim-side predicates and concrete instances -/

/-- Claim condition: no field name occurs in more than one exchange group nor
twice within a group. -/
def exgroupsDisjoint (groups : List (List String)) : Prop :=
  groups.flatten.Nodup

instance (groups : List (List String)) : Decidable (exgroupsDisjoint groups) := by
  unfold exgroupsDisjoint; infer_instance

/-- Claim condition: any two fields inside the same exchange group agree on
comparator and bitsize. -/
def exgroupsUniform (fields : List (String × ML_Field))
    (groups : List (List String)) : Prop :=
  ∀ g ∈ groups, ∀ a ∈ g, ∀ b ∈ g, ∀ fa fb, lookupField fields a = some fa →
    lookupField fields b = some fb →
    fa.comparator = fb.comparator ∧ fa.bitsize = fb.bitsize

/-- Every name occurring in an exchange group is a key of the field map. -/
def exgroupsDefined (fields : List (String × ML_Field))
    (groups : List (List String)) : Prop :=
  ∀ g ∈ groups, ∀ a ∈ g, (lookupField fields a).isSome

/-- Uniformity phrased against each group's first element (the `f0` of the
source loop); equivalent to `exgroupsUniform` for non-empty groups of
defined fields. -/
def headUniform (fields : List (String × ML_Field))
    (groups : List (List String)) : Prop :=
  ∀ g ∈ groups, ∀ g0 gr, g = g0 :: gr → ∀ f0, lookupField fields g0 = some f0 →
    ∀ a ∈ g, ∀ f, lookupField fields a = some f →
      f.comparator = f0.comparator ∧ f.bitsize = f0.bitsize

instance {ε α : Type _} [DecidableEq ε] [DecidableEq α] :
    DecidableEq (Except ε α) := fun
  | .ok a, .ok b =>
    if h : a = b then .isTrue (congrArg Except.ok h)
    else .isFalse (fun hc => h (Except.ok.inj hc))
  | .error a, .error b =>
    if h : a = b then .isTrue (congrArg Except.error h)
    else .isFalse (fun hc => h (Except.error.inj hc))
  | .ok _, .error _ => .isFalse (fun hc => Except.noConfusion hc)
  | .error _, .ok _ => .isFalse (fun hc => Except.noConfusion hc)

instance (fields : List (String × ML_Field)) (groups : List (List String)) :
    Decidable (exgroupsDefined fields groups) := by
  unfold exgroupsDefined; infer_instance

/-- A 32-bit (bitsize 32) binary-compared field of weight 1. -/
def fieldBin32 : ML_Field :=
  { name := "f", weight := 1, comparator := .BINARY, bitsize := 32 }

/-- A second field of the same shape as `fieldBin32`, for exchange groups. -/
def fieldBin32g : ML_Field :=
  { name := "g", weight := 1, comparator := .BINARY, bitsize := 32 }

/-- A two-field map whose fields may form an exchange group. -/
def fieldsFG : List (String × ML_Field) := [("f", fieldBin32), ("g", fieldBin32g)]

/-- A DICE (bitmask) field whose payload is 2^15 bits wide. -/
def fieldDice32768 : ML_Field :=
  { name := "bm", weight := 1, comparator := .DICE, bitsize := 32768 }

/-- The configuration the constructor produces for the single huge DICE field
at `bitlen = 32`: `hw_size(32768) = 16`, so `16 - 1 - 16` wraps to
`2^64 - 1`. -/
def cfgOverflow : EpilinkConfig :=
  { fields := [("bm", fieldDice32768)], exchange_groups := [],
    threshold := 9/10, tthreshold := 7/10, matching_mode := false,
    bitlen := 32, nfields := 1, max_weight := 1,
    dice_prec := 2 ^ 64 - 1, weight_prec := 16 }

/-- The configuration the constructor produces for a single binary field at
`bitlen = 8`: `(8 - 0 - 14)` wraps, giving `weight_prec = 2^63 - 3`. -/
def cfgBitlen8 : EpilinkConfig :=
  { fields := [("f", fieldBin32)], exchange_groups := [],
    threshold := 9/10, tthreshold := 7/10, matching_mode := false,
    bitlen := 8, nfields := 1, max_weight := 1,
    dice_prec := 14, weight_prec := 2 ^ 63 - 3 }

/-- The configuration the constructor produces for a single binary field at
the default `bitlen = 32`: `dice_prec = 14`, `weight_prec = 9`. -/
def cfgStd : EpilinkConfig :=
  { fields := [("f", fieldBin32)], exchange_groups := [],
    threshold := 9/10, tthreshold := 7/10, matching_mode := false,
    bitlen := 32, nfields := 1, max_weight := 1,
    dice_prec := 14, weight_prec := 9 }

/-- What `set_ideal_precision` actually produces from `cfgStd`:
`bits_av = 32`, `32 / 3 = 10`, `32 % 3 = 2`, and only `weight_prec` gets the
extra bit. -/
def cfgIdealActual : EpilinkConfig :=
  { cfgStd with dice_prec := 10, weight_prec := 11 }

/-! ## Arithmetic helper lemmas -/

theorem size_mod_pos : 0 < SIZE_MOD := by
  unfold SIZE_MOD; positivity

theorem wsub_eq_sub {a b : ℕ} (hb : b ≤ a) (ha : a < SIZE_MOD) :
    wsub a b = a - b := by
  have hbM : b < SIZE_MOD := lt_of_le_of_lt hb ha
  unfold wsub
  rw [Nat.mod_eq_of_lt ha, Nat.mod_eq_of_lt hbM]
  have h1 : a + (SIZE_MOD - b) = (a - b) + SIZE_MOD := by omega
  rw [h1, Nat.add_mod_right, Nat.mod_eq_of_lt (by omega)]

theorem wadd_eq_add {a b : ℕ} (h : a + b < SIZE_MOD) : wadd a b = a + b := by
  unfold wadd
  rw [Nat.mod_eq_of_lt (by omega : a < SIZE_MOD),
    Nat.mod_eq_of_lt (by omega : b < SIZE_MOD), Nat.mod_eq_of_lt h]

/-! ## C1 — the precision-bit invariant -/

/-- **C1.** The claim states that every configuration accepted by the
`EpilinkConfig` constructor satisfies
`dice_prec + 2*weight_prec + ceil_log2(nfields²) ≤ bitlen`.  The code intends
exactly this (comment and `assert` at `epilink_input.cpp:60,69`), but the
`size_t` computation wraps: for a single DICE field of bitsize `32768` at
`bitlen = 32`, `dice_prec = 16 - 1 - hw_size(32768) = 15 - 16` wraps to
`2^64 - 1`, and the asserted sum wraps to `31 ≤ 32`, so the constructor
accepts a configuration that violates the budget by far. -/
theorem c1_assert_defeated_by_wraparound :
    mkEpilinkConfig [("bm", fieldDice32768)] [] (9/10) (7/10) false 32
      = .ok cfgOverflow ∧
    ¬ (cfgOverflow.dice_prec + 2 * cfgOverflow.weight_prec
        + ceil_log2 (cfgOverflow.nfields * cfgOverflow.nfields)
        ≤ cfgOverflow.bitlen) :=
  ⟨rfl, by decide⟩

/-! ## C2 — the safe-mode precision planner -/

/-- **C2 (counterexample).** The claimed formula
`weight_prec = (bitlen - ceil_log2(nfields²) - dice_prec) / 2`, read as plain
(non-wrapping) arithmetic, fails for an accepted configuration with
`bitlen = 8`: the C++ `size_t` subtraction `8 - 0 - 14` wraps, so the stored
`weight_prec` is `2^63 - 3`, not `(8 - 0 - 14)/2`. -/
theorem c2_counterexample :
    mkEpilinkConfig [("f", fieldBin32)] [] (9/10) (7/10) false 8
      = .ok cfgBitlen8 ∧
    cfgBitlen8.weight_prec
      ≠ (cfgBitlen8.bitlen - ceil_log2 (cfgBitlen8.nfields * cfgBitlen8.nfields)
          - cfgBitlen8.dice_prec) / 2 :=
  ⟨rfl, by decide⟩

/-- **C2 (amended).** Provided no `size_t` subtraction wraps — i.e.
`hw_size(max_bm_size) ≤ 15` and
`ceil_log2(nfields²) + (16 - 1 - hw_size(max_bm_size)) ≤ bitlen` — the
constructor's safe-mode planner sets
`dice_prec = 16 - 1 - hw_size(max_bm_size)` and
`weight_prec = (bitlen - ceil_log2(nfields²) - dice_prec) / 2`, where
`hw_size(w) = ceil_log2_min1(w + 1)`. -/
theorem c2_safe_mode_planner (fields : List (String × ML_Field))
    (groups : List (List String)) (t tt : ℚ) (mm : Bool) (bitlen : ℕ)
    (cfg : EpilinkConfig)
    (hhw : hw_size (maxBmSize fields) ≤ 15)
    (hfit : ceil_log2 (fields.length * fields.length)
        + (16 - 1 - hw_size (maxBmSize fields)) ≤ bitlen)
    (hbl : bitlen < SIZE_MOD)
    (hn : fields.length * fields.length < SIZE_MOD)
    (hok : mkEpilinkConfig fields groups t tt mm bitlen = .ok cfg) :
    cfg.dice_prec = 16 - 1 - hw_size (maxBmSize fields) ∧
    cfg.weight_prec
      = (bitlen - ceil_log2 (cfg.nfields * cfg.nfields) - cfg.dice_prec) / 2 := by
  have hmod : bitlen % SIZE_MOD = bitlen := Nat.mod_eq_of_lt hbl
  have hnn : fields.length * fields.length % SIZE_MOD
      = fields.length * fields.length := Nat.mod_eq_of_lt hn
  have hd : safeDicePrec fields = 16 - 1 - hw_size (maxBmSize fields) := by
    unfold safeDicePrec
    exact wsub_eq_sub hhw (by norm_num [SIZE_MOD])
  have hc : logNSq fields.length = ceil_log2 (fields.length * fields.length) := by
    unfold logNSq; rw [hnn]
  have hw : safeWeightPrec fields bitlen fields.length
      = (bitlen - ceil_log2 (fields.length * fields.length)
          - safeDicePrec fields) / 2 := by
    unfold safeWeightPrec
    rw [hc, hd,
      wsub_eq_sub (by omega) hbl,
      wsub_eq_sub (by omega) (by omega)]
  unfold mkEpilinkConfig at hok
  split at hok
  case isFalse => exact absurd hok (by simp)
  case isTrue =>
    cases hcg : checkGroups fields [] groups with
    | error e => rw [hcg] at hok; exact absurd hok (by simp)
    | ok xg =>
      rw [hcg] at hok
      have hcfg := (Except.ok.injEq _ _).mp hok
      subst hcfg
      refine ⟨by simpa using hd, ?_⟩
      simp only [hmod]
      rw [hw, hd]

/-- **C2 (amended, witness).** For the single binary field at `bitlen = 32`
no subtraction wraps: `dice_prec = 16 - 1 - 1 = 14`,
`weight_prec = (32 - 0 - 14)/2 = 9`. -/
theorem c2_safe_mode_planner_witness :
    cfgStd.dice_prec = 16 - 1 - hw_size (maxBmSize [("f", fieldBin32)]) ∧
    cfgStd.weight_prec
      = (32 - ceil_log2 (cfgStd.nfields * cfgStd.nfields)
          - cfgStd.dice_prec) / 2 :=
  c2_safe_mode_planner [("f", fieldBin32)] [] (9/10) (7/10) false 32 cfgStd
    (by decide) (by decide) (by decide) (by decide) rfl

/-! ## C3 and C4 — explicit precision setting -/

theorem set_precisions_ok_shape {cfg : EpilinkConfig} {d w : ℕ}
    {cfg' : EpilinkConfig} (h : set_precisions cfg d w = .ok cfg') :
    cfg' = { cfg with dice_prec := d % SIZE_MOD, weight_prec := w % SIZE_MOD } := by
  unfold set_precisions at h
  split at h
  · exact absurd h (by simp)
  · exact ((Except.ok.injEq _ _).mp h).symm

/-- **C3 (counterexample).** The claim states that with two leftover bits
(`bits_av % 3 = 2`) both `dice_prec` and `weight_prec` receive one extra bit.
For `cfgStd` (`bitlen = 32`, `nfields = 1`), `bits_av = 32`, `32 % 3 = 2`,
and the code (`epilink_input.cpp:127`) increments only `weight_prec`:
the result is `dice_prec = 10 ≠ 32/3 + 1 = 11`, `weight_prec = 11`. -/
theorem c3_counterexample :
    set_ideal_precision cfgStd = .ok cfgIdealActual ∧
    cfgStd.bitlen - ceil_log2 (cfgStd.nfields * cfgStd.nfields) = 32 ∧
    32 % 3 = 2 ∧
    cfgIdealActual.dice_prec ≠ 32 / 3 + 1 :=
  ⟨rfl, by decide, by decide, by decide⟩

/-- **C3 (amended).** `set_ideal_precision` divides
`bits_av = bitlen - ceil_log2(nfields²)` into thirds; with one leftover bit
(`bits_av % 3 = 1`) `dice_prec` is incremented, and with two leftover bits
(`bits_av % 3 = 2`) only `weight_prec` is incremented (its extra bit counts
twice in the budget, consuming both leftover bits); `dice_prec` gets no
extra bit in that case. -/
theorem c3_ideal_precision_thirds (cfg cfg' : EpilinkConfig) (bits_av : ℕ)
    (hbl : cfg.bitlen < SIZE_MOD)
    (hn : cfg.nfields * cfg.nfields < SIZE_MOD)
    (hc : ceil_log2 (cfg.nfields * cfg.nfields) ≤ cfg.bitlen)
    (hba : bits_av = cfg.bitlen - ceil_log2 (cfg.nfields * cfg.nfields))
    (h : set_ideal_precision cfg = .ok cfg') :
    cfg'.dice_prec = bits_av / 3 + (if bits_av % 3 = 1 then 1 else 0) ∧
    cfg'.weight_prec = bits_av / 3 + (if bits_av % 3 = 2 then 1 else 0) := by
  have hnn : cfg.nfields * cfg.nfields % SIZE_MOD = cfg.nfields * cfg.nfields :=
    Nat.mod_eq_of_lt hn
  have hlg : logNSq cfg.nfields = ceil_log2 (cfg.nfields * cfg.nfields) := by
    unfold logNSq; rw [hnn]
  have hwsub : wsub cfg.bitlen (logNSq cfg.nfields) = bits_av := by
    rw [hlg, hba]; exact wsub_eq_sub hc hbl
  have hBlt : bits_av < SIZE_MOD := by omega
  have hdiv : bits_av / 3 < SIZE_MOD :=
    lt_of_le_of_lt (Nat.div_le_self _ _) hBlt
  unfold set_ideal_precision at h
  rw [hwsub] at h
  split at h
  case isTrue h1 =>
    have hpos : 0 < bits_av := by omega
    have hd1 : bits_av / 3 + 1 < SIZE_MOD :=
      Nat.lt_of_lt_of_le (Nat.succ_lt_succ (Nat.div_lt_self hpos (by omega))) hBlt
    rw [set_precisions_ok_shape h]
    simp [Nat.mod_eq_of_lt hd1, Nat.mod_eq_of_lt hdiv, h1]
  case isFalse h1 =>
    split at h
    case isTrue h2 =>
      have hpos : 0 < bits_av := by omega
      have hd1 : bits_av / 3 + 1 < SIZE_MOD :=
        Nat.lt_of_lt_of_le (Nat.succ_lt_succ (Nat.div_lt_self hpos (by omega))) hBlt
      rw [set_precisions_ok_shape h]
      simp [Nat.mod_eq_of_lt hd1, Nat.mod_eq_of_lt hdiv, h1, h2]
    case isFalse h2 =>
      rw [set_precisions_ok_shape h]
      simp [Nat.mod_eq_of_lt hdiv, h1, h2]

/-- **C3 (witness).** For `cfgStd` (`bits_av = 32`, `32 % 3 = 2`):
`dice_prec = 10`, `weight_prec = 11`. -/
theorem c3_ideal_precision_thirds_witness :
    cfgIdealActual.dice_prec = 32 / 3 + (if 32 % 3 = 1 then 1 else 0) ∧
    cfgIdealActual.weight_prec = 32 / 3 + (if 32 % 3 = 2 then 1 else 0) :=
  c3_ideal_precision_thirds cfgStd cfgIdealActual 32 (by decide) (by decide)
    (by decide) (by decide) rfl

/-- **C4 (counterexample).** The claim states `set_precisions(a, b)` fails iff
`a + 2b + ceil_log2(nfields²) > bitlen`.  For `a = 0`, `b = 2^63` the check
itself overflows `size_t` (`2 * 2^63 ≡ 0 (mod 2^64)`), so the call succeeds
and stores `weight_prec = 2^63` although `a + 2b + c = 2^64 > 32`. -/
theorem c4_counterexample :
    set_precisions cfgStd 0 (2 ^ 63)
      = .ok { cfgStd with dice_prec := 0, weight_prec := 2 ^ 63 } ∧
    0 + 2 * 2 ^ 63 + ceil_log2 (cfgStd.nfields * cfgStd.nfields)
      > cfgStd.bitlen :=
  ⟨rfl, by decide⟩

/-- **C4 (amended).** Provided the budget sum does not overflow `size_t`
(`a + 2b + ceil_log2(nfields²) < 2^64`), `set_precisions(a, b)` fails with
the `PrecisionOverflow` error (`std::invalid_argument`) iff
`a + 2b + ceil_log2(nfields²) > bitlen`; on success the precisions are set to
`a` and `b` and nothing else changes (in particular, on failure the stored
configuration is untouched). -/
theorem c4_set_precisions_budget (cfg : EpilinkConfig) (a b : ℕ)
    (hn : cfg.nfields * cfg.nfields < SIZE_MOD)
    (hov : a + 2 * b + ceil_log2 (cfg.nfields * cfg.nfields) < SIZE_MOD) :
    (set_precisions cfg a b = .error .invalidArgument ↔
      a + 2 * b + ceil_log2 (cfg.nfields * cfg.nfields) > cfg.bitlen) ∧
    (a + 2 * b + ceil_log2 (cfg.nfields * cfg.nfields) ≤ cfg.bitlen →
      set_precisions cfg a b
        = .ok { cfg with dice_prec := a, weight_prec := b }) := by
  have hnn : cfg.nfields * cfg.nfields % SIZE_MOD = cfg.nfields * cfg.nfields :=
    Nat.mod_eq_of_lt hn
  have hlg : logNSq cfg.nfields = ceil_log2 (cfg.nfields * cfg.nfields) := by
    unfold logNSq; rw [hnn]
  have ha : a % SIZE_MOD = a := Nat.mod_eq_of_lt (by omega)
  have hb : b % SIZE_MOD = b := Nat.mod_eq_of_lt (by omega)
  unfold set_precisions
  rw [ha, hb, hlg,
    wadd_eq_add (show a + 2 * b < SIZE_MOD by omega),
    wadd_eq_add (show a + 2 * b + ceil_log2 (cfg.nfields * cfg.nfields)
      < SIZE_MOD by omega)]
  split_ifs with hgt
  · exact ⟨⟨fun _ => hgt, fun _ => rfl⟩, fun hle => absurd hgt (by omega)⟩
  · exact ⟨⟨fun h => absurd h (by simp), fun h => absurd h hgt⟩, fun _ => rfl⟩

/-! ## C5 — threshold ordering of the revealed outputs -/

/-- **C5.** In the linkage circuit the match bit is
`(T * D) mod 2^bitlen < N` and the tentative bit `(Tt * D) mod 2^bitlen < N`,
with `T = ⌊threshold · 2^dice_prec⌋` and `Tt = ⌊tthreshold · 2^dice_prec⌋`.
Given `tthreshold ≤ threshold` and no overflow of the winning product
(`T * D < 2^bitlen`, which the precision budget guarantees) and of the
numerator, `match = true` implies `tentative = true`. -/
theorem c5_threshold_ordering (cfg : EpilinkConfig) (num den : ℕ)
    (hth : cfg.tthreshold ≤ cfg.threshold)
    (hov : threshold_const cfg.threshold cfg.dice_prec * den < 2 ^ cfg.bitlen)
    (hnum : num < 2 ^ cfg.bitlen)
    (hm : match_bit cfg.bitlen (threshold_const cfg.threshold cfg.dice_prec)
        num den = true) :
    match_bit cfg.bitlen (threshold_const cfg.tthreshold cfg.dice_prec)
      num den = true := by
  have hTt : threshold_const cfg.tthreshold cfg.dice_prec
      ≤ threshold_const cfg.threshold cfg.dice_prec := by
    unfold threshold_const
    have hle : cfg.tthreshold * (2 : ℚ) ^ cfg.dice_prec
        ≤ cfg.threshold * (2 : ℚ) ^ cfg.dice_prec :=
      mul_le_mul_of_nonneg_right hth (by positivity)
    exact Int.toNat_le_toNat (Int.floor_le_floor hle)
  have h1 : threshold_const cfg.tthreshold cfg.dice_prec * den
      ≤ threshold_const cfg.threshold cfg.dice_prec * den :=
    Nat.mul_le_mul_right den hTt
  unfold match_bit at hm ⊢
  rw [decide_eq_true_iff] at hm ⊢
  rw [Nat.mod_eq_of_lt hov, Nat.mod_eq_of_lt hnum] at hm
  rw [Nat.mod_eq_of_lt (lt_of_le_of_lt h1 hov), Nat.mod_eq_of_lt hnum]
  exact lt_of_le_of_lt h1 hm

/-- **C5 (witness).** For `cfgStd` (`threshold = 0.9`, `tthreshold = 0.7`,
`dice_prec = 14`): `T = 14745`, `Tt = 11468`, and with the winning quotient
`(N, D) = (2^20, 10)` the match bit forces the tentative bit. -/
theorem c5_threshold_ordering_witness :
    match_bit cfgStd.bitlen (threshold_const cfgStd.tthreshold cfgStd.dice_prec)
      (2 ^ 20) 10 = true :=
  c5_threshold_ordering cfgStd (2 ^ 20) 10
    (by norm_num [cfgStd])
    (by norm_num [cfgStd, threshold_const]; decide)
    (by norm_num [cfgStd])
    (by norm_num [cfgStd, threshold_const, match_bit]; decide)

/-- **C4 (witness).** The spec's own scenario: requesting precisions
`(20, 20)` on a 32-bit configuration overflows the budget (`20 + 40 > 32`)
and is rejected. -/
theorem c4_set_precisions_budget_witness :
    set_precisions cfgStd 20 20 = .error .invalidArgument :=
  (c4_set_precisions_budget cfgStd 20 20 (by decide) (by decide)).1.mpr
    (by decide)

/-! ## C6 — the weight rescaling function -/

/-- **C6.** For `0 ≤ w ≤ max_w` with `max_w > 0` and any precision `prec`,
`rescale_weight(w, prec, max_w) = llround((w/max_w)·(2^prec − 1))` lies in
`[0, 2^prec − 1]`, and `rescale_weight(max_w, prec, max_w) = 2^prec − 1`. -/
theorem c6_rescale_weight_range (w max_w : ℚ) (prec : ℕ)
    (h0 : 0 ≤ w) (h1 : w ≤ max_w) (h2 : 0 < max_w) :
    0 ≤ rescale_weight w prec max_w ∧
    rescale_weight w prec max_w ≤ 2 ^ prec - 1 ∧
    rescale_weight max_w prec max_w = 2 ^ prec - 1 := by
  have hpow : (1 : ℚ) ≤ 2 ^ prec := one_le_pow₀ (by norm_num)
  have hM0 : (0 : ℚ) ≤ 2 ^ prec - 1 := by linarith
  have hr0 : (0 : ℚ) ≤ w / max_w := div_nonneg h0 h2.le
  have hr1 : w / max_w ≤ 1 := (div_le_one h2).mpr h1
  have hx0 : (0 : ℚ) ≤ w / max_w * (2 ^ prec - 1) := mul_nonneg hr0 hM0
  have hx1 : w / max_w * (2 ^ prec - 1) ≤ 2 ^ prec - 1 := by
    calc w / max_w * (2 ^ prec - 1) ≤ 1 * (2 ^ prec - 1) :=
          mul_le_mul_of_nonneg_right hr1 hM0
      _ = 2 ^ prec - 1 := one_mul _
  have hfloor_ub : ∀ x : ℚ, 0 ≤ x → x ≤ 2 ^ prec - 1 →
      ⌊x + 1/2⌋ ≤ (2 : ℤ) ^ prec - 1 := by
    intro x _ hxu
    have : ⌊x + 1/2⌋ < (2 : ℤ) ^ prec := by
      rw [Int.floor_lt]
      push_cast
      linarith
    omega
  constructor
  · unfold rescale_weight llround
    rw [if_neg (not_lt.mpr (by linarith))]
    exact Int.le_floor.mpr (by push_cast; linarith)
  constructor
  · unfold rescale_weight llround
    rw [if_neg (not_lt.mpr (by linarith))]
    exact hfloor_ub _ hx0 hx1
  · unfold rescale_weight llround
    rw [div_self h2.ne', one_mul]
    rw [if_neg (not_lt.mpr hM0)]
    rw [Int.floor_eq_iff]
    constructor
    · push_cast; linarith
    · push_cast; linarith

/-- **C6 (witness).** `rescale_weight(1, 3, 2) = llround(3.5) = 4 ∈ [0, 7]`
and `rescale_weight(2, 3, 2) = 7`. -/
theorem c6_rescale_weight_range_witness :
    0 ≤ rescale_weight 1 3 2 ∧
    rescale_weight 1 3 2 ≤ 2 ^ 3 - 1 ∧
    rescale_weight 2 3 2 = 2 ^ 3 - 1 :=
  c6_rescale_weight_range 1 2 3 (by norm_num) (by norm_num) (by norm_num)

/-! ## C7 — build_circuit and the empty database -/

/-- **C7 (counterexample).** The claim states that `build_circuit(0)` fails
with `EmptyDatabase` and does not mark the engine as built.  The source
(`secure_epilinker.cpp:568`) ignores `nvals` entirely and unconditionally
sets the built flag, so calling it with `nvals = 0` on a fresh engine yields
a built engine. -/
theorem c7_counterexample :
    build_circuit { is_built := false, is_setup := false } 0
      = { is_built := true, is_setup := false } ∧
    (build_circuit { is_built := false, is_setup := false } 0).is_built = true :=
  ⟨rfl, rfl⟩

/-- **C7 (amended).** `SecureEpilinker::build_circuit` ignores its `nvals`
argument (including `nvals = 0`), never fails, sets the built flag and leaves
the setup flag unchanged; no `EmptyDatabase` check exists in the engine. -/
theorem c7_build_circuit_ignores_nvals (e : SecureEpilinker) (nvals : ℕ) :
    build_circuit e nvals = { e with is_built := true } ∧
    build_circuit e nvals = build_circuit e 0 :=
  ⟨rfl, rfl⟩

/-! ## C8 — engine state after a run -/

/-- **C8 (counterexample).** The claim states that after `run_as_client`
completes both the built flag and the setup flag are cleared.  Running from
the fully set-up state yields `is_built = true` (only `is_setup` is cleared,
`secure_epilinker.cpp:618`). -/
theorem c8_counterexample :
    run_as_client { is_built := true, is_setup := true }
      = .ok { is_built := true, is_setup := false } ∧
    ({ is_built := true, is_setup := false } : SecureEpilinker).is_built ≠ false :=
  ⟨rfl, by decide⟩

/-- **C8 (amended).** After a completed `run_as_client` or `run_as_server`
call, the setup flag is cleared but the built flag is unchanged: the engine
returns to the *Built* state (not *Created*), so a subsequent run needs a new
setup phase but not a new `build_circuit`. -/
theorem c8_run_clears_only_setup (e e' : SecureEpilinker)
    (h : run_as_client e = .ok e' ∨ run_as_server e = .ok e') :
    e'.is_setup = false ∧ e'.is_built = e.is_built := by
  rcases e with ⟨b, s⟩
  rcases e' with ⟨b', s'⟩
  rcases h with h | h <;> revert h <;>
    cases b <;> cases s <;> cases b' <;> cases s' <;> decide

/-- **C8 (witness).** Running from the built-and-set-up engine state yields
setup cleared and built preserved. -/
theorem c8_run_clears_only_setup_witness :
    ({ is_built := true, is_setup := false } : SecureEpilinker).is_setup = false ∧
    ({ is_built := true, is_setup := false } : SecureEpilinker).is_built
      = ({ is_built := true, is_setup := true } : SecureEpilinker).is_built :=
  c8_run_clears_only_setup { is_built := true, is_setup := true }
    { is_built := true, is_setup := false } (Or.inl rfl)

/-! ## C9 — exchange-group validation in the constructor -/

theorem checkGroupFields_cons (fields : List (String × ML_Field))
    (f0 : ML_Field) (xg : List String) (a : String) (rest : List String) :
    checkGroupFields fields f0 xg (a :: rest) =
      if a ∈ xg then .error .invalidArgument
      else
        match lookupField fields a with
        | none => .error .outOfRange
        | some f =>
          if f.comparator ≠ f0.comparator then .error .invalidArgument
          else if f.bitsize ≠ f0.bitsize then .error .invalidArgument
          else checkGroupFields fields f0 (a :: xg) rest := rfl

theorem checkGroupFields_ok (fields : List (String × ML_Field))
    (f0 : ML_Field) (g : List String) :
    ∀ xg : List String, (∀ a ∈ g, a ∉ xg) → g.Nodup →
    (∀ a ∈ g, ∀ f, lookupField fields a = some f →
      f.comparator = f0.comparator ∧ f.bitsize = f0.bitsize) →
    (∀ a ∈ g, (lookupField fields a).isSome) →
    checkGroupFields fields f0 xg g = .ok (g.reverse ++ xg) := by
  induction g with
  | nil => intro xg _ _ _ _; simp [checkGroupFields]
  | cons a g' ih =>
    intro xg hxg hnd hmatch hdef
    have ha : a ∉ xg := hxg a (List.mem_cons_self a g')
    obtain ⟨f, hf⟩ :=
      Option.isSome_iff_exists.mp (hdef a (List.mem_cons_self a g'))
    have hmf := hmatch a (List.mem_cons_self a g') f hf
    have hrec := ih (a :: xg)
      (fun b hb hmem => by
        rcases List.mem_cons.mp hmem with h | h
        · exact (List.nodup_cons.mp hnd).1 (h ▸ hb)
        · exact hxg b (List.mem_cons_of_mem a hb) h)
      (List.nodup_cons.mp hnd).2
      (fun b hb => hmatch b (List.mem_cons_of_mem a hb))
      (fun b hb => hdef b (List.mem_cons_of_mem a hb))
    rw [checkGroupFields_cons, if_neg ha]
    simp only [hf]
    rw [if_neg (by simp [hmf.1]), if_neg (by simp [hmf.2]), hrec]
    simp

theorem checkGroupFields_err (fields : List (String × ML_Field))
    (f0 : ML_Field) (g : List String) :
    ∀ xg : List String,
    (∀ a ∈ g, (lookupField fields a).isSome) →
    ¬ ((∀ a ∈ g, a ∉ xg) ∧ g.Nodup ∧
      (∀ a ∈ g, ∀ f, lookupField fields a = some f →
        f.comparator = f0.comparator ∧ f.bitsize = f0.bitsize)) →
    checkGroupFields fields f0 xg g = .error .invalidArgument := by
  induction g with
  | nil => intro xg _ hn; exact absurd ⟨by simp, List.nodup_nil, by simp⟩ hn
  | cons a g' ih =>
    intro xg hdef hncond
    by_cases ha : a ∈ xg
    · rw [checkGroupFields_cons, if_pos ha]
    · obtain ⟨f, hf⟩ :=
        Option.isSome_iff_exists.mp (hdef a (List.mem_cons_self a g'))
      by_cases hcmp : f.comparator = f0.comparator
      · by_cases hbit : f.bitsize = f0.bitsize
        · have hrec := ih (a :: xg)
            (fun b hb => hdef b (List.mem_cons_of_mem a hb)) ?_
          · rw [checkGroupFields_cons, if_neg ha]
            simp only [hf]
            rw [if_neg (by simp [hcmp]), if_neg (by simp [hbit]), hrec]
          · intro ⟨hxg', hnd', hmatch'⟩
            refine hncond ⟨?_, ?_, ?_⟩
            · intro b hb
              rcases List.mem_cons.mp hb with h | h
              · exact h ▸ ha
              · exact fun hbx =>
                  hxg' b h (List.mem_cons_of_mem a hbx)
            · exact List.nodup_cons.mpr
                ⟨fun hag' => hxg' a hag' (List.mem_cons_self a xg), hnd'⟩
            · intro b hb fb hfb
              rcases List.mem_cons.mp hb with h | h
              · subst h
                rw [hf] at hfb
                exact (Option.some.injEq _ _).mp hfb ▸ ⟨hcmp, hbit⟩
              · exact hmatch' b h fb hfb
        · rw [checkGroupFields_cons, if_neg ha]
          simp only [hf]
          rw [if_neg (by simp [hcmp]), if_pos hbit]
      · rw [checkGroupFields_cons, if_neg ha]
        simp only [hf]
        rw [if_pos hcmp]

theorem checkGroups_cons (fields : List (String × ML_Field))
    (xg : List String) (g0 : String) (gr : List String)
    (gs : List (List String)) :
    checkGroups fields xg ((g0 :: gr) :: gs) =
      match lookupField fields g0 with
      | none => .error .outOfRange
      | some f0 =>
        match checkGroupFields fields f0 xg (g0 :: gr) with
        | .error e => .error e
        | .ok xg' => checkGroups fields xg' gs := rfl

theorem checkGroups_ok (fields : List (String × ML_Field))
    (gs : List (List String)) :
    ∀ xg : List String,
    (∀ g ∈ gs, g ≠ []) →
    (∀ g ∈ gs, ∀ a ∈ g, (lookupField fields a).isSome) →
    gs.flatten.Nodup →
    (∀ a ∈ gs.flatten, a ∉ xg) →
    headUniform fields gs →
    checkGroups fields xg gs = .ok (gs.flatten.reverse ++ xg) := by
  induction gs with
  | nil => intro xg _ _ _ _ _; simp [checkGroups]
  | cons g gs' ih =>
    intro xg hne hdef hnd hxg hhu
    obtain ⟨g0, gr, rfl⟩ := List.exists_cons_of_ne_nil (hne g (List.mem_cons_self g gs'))
    obtain ⟨f0, hf0⟩ := Option.isSome_iff_exists.mp
      (hdef _ (List.mem_cons_self _ gs') g0 (List.mem_cons_self g0 gr))
    have hnd' := List.nodup_append.mp
      (show ((g0 :: gr) ++ gs'.flatten).Nodup by
        rw [← List.flatten_cons]; exact hnd)
    have hcf := checkGroupFields_ok fields f0 (g0 :: gr) xg
      (fun a hag => hxg a (List.mem_flatten.mpr ⟨_, List.mem_cons_self _ _, hag⟩))
      hnd'.1
      (hhu _ (List.mem_cons_self _ gs') g0 gr rfl f0 hf0)
      (hdef _ (List.mem_cons_self _ gs'))
    have hmem' : ∀ a ∈ gs'.flatten, a ∉ (g0 :: gr).reverse ++ xg := by
      intro a haf hmem
      rcases List.mem_append.mp hmem with h | h
      · exact hnd'.2.2 (List.mem_reverse.mp h) haf
      · refine hxg a ?_ h
        rw [List.flatten_cons]
        exact List.mem_append_right _ haf
    have hrec := ih ((g0 :: gr).reverse ++ xg)
      (fun h hh => hne h (List.mem_cons_of_mem _ hh))
      (fun h hh => hdef h (List.mem_cons_of_mem _ hh))
      hnd'.2.1
      hmem'
      (fun h hh => hhu h (List.mem_cons_of_mem _ hh))
    rw [checkGroups_cons]
    simp only [hf0, hcf]
    rw [hrec]
    simp

theorem checkGroups_err (fields : List (String × ML_Field))
    (gs : List (List String)) :
    ∀ xg : List String,
    (∀ g ∈ gs, g ≠ []) →
    (∀ g ∈ gs, ∀ a ∈ g, (lookupField fields a).isSome) →
    ¬ (gs.flatten.Nodup ∧ (∀ a ∈ gs.flatten, a ∉ xg) ∧ headUniform fields gs) →
    checkGroups fields xg gs = .error .invalidArgument := by
  induction gs with
  | nil =>
    intro xg _ _ hncond
    exact absurd ⟨List.nodup_nil, by simp, by intro g hg; simp at hg⟩ hncond
  | cons g gs' ih =>
    intro xg hne hdef hncond
    obtain ⟨g0, gr, rfl⟩ :=
      List.exists_cons_of_ne_nil (hne g (List.mem_cons_self g gs'))
    obtain ⟨f0, hf0⟩ := Option.isSome_iff_exists.mp
      (hdef _ (List.mem_cons_self _ gs') g0 (List.mem_cons_self g0 gr))
    by_cases hcond : (∀ a ∈ (g0 :: gr), a ∉ xg) ∧ (g0 :: gr).Nodup ∧
      (∀ a ∈ (g0 :: gr), ∀ f, lookupField fields a = some f →
        f.comparator = f0.comparator ∧ f.bitsize = f0.bitsize)
    · have hcf := checkGroupFields_ok fields f0 (g0 :: gr) xg
        hcond.1 hcond.2.1 hcond.2.2 (hdef _ (List.mem_cons_self _ gs'))
      have hrec := ih ((g0 :: gr).reverse ++ xg)
        (fun h hh => hne h (List.mem_cons_of_mem _ hh))
        (fun h hh => hdef h (List.mem_cons_of_mem _ hh)) ?_
      · rw [checkGroups_cons]
        simp only [hf0, hcf]
        rw [hrec]
      · intro ⟨hnd', hxg', hhu'⟩
        refine hncond ⟨?_, ?_, ?_⟩
        · refine List.nodup_append.mpr ⟨hcond.2.1, hnd', ?_⟩
          intro a hag haf
          exact hxg' a haf (List.mem_append_left xg (List.mem_reverse.mpr hag))
        · intro a hmem
          rw [List.flatten_cons] at hmem
          rcases List.mem_append.mp hmem with h | h
          · exact hcond.1 a h
          · exact fun hax => hxg' a h (List.mem_append_right _ hax)
        · intro h hh
          rcases List.mem_cons.mp hh with h1 | h1
          · subst h1
            intro h0 hr heq fz hfz a hag f hfa
            have hz : fz = f0 := by
              have : h0 = g0 := ((List.cons.injEq _ _ _ _).mp heq).1.symm
              rw [this, hf0] at hfz
              exact ((Option.some.injEq _ _).mp hfz).symm
            subst hz
            exact hcond.2.2 a (heq ▸ hag) f hfa
          · exact hhu' h h1
    · have hcf := checkGroupFields_err fields f0 (g0 :: gr) xg
        (hdef _ (List.mem_cons_self _ gs')) hcond
      rw [checkGroups_cons]
      simp only [hf0, hcf]

theorem uniform_iff_headUniform (fields : List (String × ML_Field))
    (groups : List (List String))
    (hne : ∀ g ∈ groups, g ≠ [])
    (hdef : exgroupsDefined fields groups) :
    exgroupsUniform fields groups ↔ headUniform fields groups := by
  constructor
  · intro hu g hg g0 gr heq f0 hf0 a hag f hfa
    exact hu g hg a hag g0 (heq ▸ List.mem_cons_self g0 gr) f f0 hfa hf0
  · intro hh g hg a hag b hbg fa fb hfa hfb
    obtain ⟨g0, gr, rfl⟩ := List.exists_cons_of_ne_nil (hne g hg)
    obtain ⟨f0, hf0⟩ := Option.isSome_iff_exists.mp
      (hdef _ hg g0 (List.mem_cons_self g0 gr))
    have h1 := hh _ hg g0 gr rfl f0 hf0 a hag fa hfa
    have h2 := hh _ hg g0 gr rfl f0 hf0 b hbg fb hfb
    exact ⟨h1.1.trans h2.1.symm, h1.2.trans h2.2.symm⟩

/-- **C9 (counterexample).** The claim states that whenever the three group
conditions hold (disjointness, equal comparators, equal bitsizes within each
group) construction succeeds.  For a single-element group naming a
non-existent field (`fields = {"a"}`, `groups = [["b"]]`) all three
conditions hold vacuously, yet the constructor fails: `fields.at("b")`
throws `std::out_of_range` (`epilink_input.cpp:79`). -/
theorem c9_counterexample :
    exgroupsDisjoint [["b"]] ∧
    exgroupsUniform [("a", fieldBin32)] [["b"]] ∧
    mkEpilinkConfig [("a", fieldBin32)] [["b"]] (9/10) (7/10) false 32
      = .error .outOfRange := by
  refine ⟨by decide, ?_, by rfl⟩
  intro g hg a hag b hbg fa fb hfa hfb
  simp only [List.mem_singleton] at hg
  subst hg
  simp only [List.mem_singleton] at hag
  subst hag
  simp [lookupField, List.lookup] at hfa

/-- **C9 (amended).** Assume the exchange groups are non-empty, name only
existing fields, and the precision `assert` of the constructor passes.  Then:
if the groups are disjoint (no field twice) and uniform in comparator and
bitsize, construction succeeds with the fields and groups stored unchanged;
otherwise the constructor fails with `std::invalid_argument` (the spec's
`InvalidConfig`). -/
theorem c9_group_validation (fields : List (String × ML_Field))
    (groups : List (List String)) (t tt : ℚ) (mm : Bool) (bitlen : ℕ)
    (hne : ∀ g ∈ groups, g ≠ [])
    (hdef : exgroupsDefined fields groups)
    (hassert : precAssertOk (safeDicePrec fields)
      (safeWeightPrec fields (bitlen % SIZE_MOD) fields.length)
      fields.length (bitlen % SIZE_MOD)) :
    (exgroupsDisjoint groups ∧ exgroupsUniform fields groups →
      mkEpilinkConfig fields groups t tt mm bitlen
        = .ok { fields := fields, exchange_groups := groups, threshold := t,
                tthreshold := tt, matching_mode := mm,
                bitlen := bitlen % SIZE_MOD, nfields := fields.length,
                max_weight := maxWeightOf fields,
                dice_prec := safeDicePrec fields,
                weight_prec := safeWeightPrec fields (bitlen % SIZE_MOD)
                  fields.length }) ∧
    (¬ (exgroupsDisjoint groups ∧ exgroupsUniform fields groups) →
      mkEpilinkConfig fields groups t tt mm bitlen
        = .error .invalidArgument) := by
  constructor
  · intro ⟨hdisj, hu⟩
    have hcg := checkGroups_ok fields groups [] hne hdef hdisj (by simp)
      ((uniform_iff_headUniform fields groups hne hdef).mp hu)
    unfold mkEpilinkConfig
    rw [if_pos hassert, hcg]
  · intro hncond
    have hcg := checkGroups_err fields groups [] hne hdef (by
      intro ⟨hnd, _, hhu⟩
      exact hncond ⟨hnd,
        (uniform_iff_headUniform fields groups hne hdef).mpr hhu⟩)
    unfold mkEpilinkConfig
    rw [if_pos hassert, hcg]

/-- **C9 (witness).** A valid two-field exchange group over `fieldsFG`
(two same-shape binary fields) is accepted with fields and groups
unchanged. -/
theorem c9_group_validation_witness :
    mkEpilinkConfig fieldsFG [["f", "g"]] (9/10) (7/10) false 32
      = .ok { fields := fieldsFG, exchange_groups := [["f", "g"]],
              threshold := 9/10, tthreshold := 7/10, matching_mode := false,
              bitlen := 32 % SIZE_MOD, nfields := fieldsFG.length,
              max_weight := maxWeightOf fieldsFG,
              dice_prec := safeDicePrec fieldsFG,
              weight_prec := safeWeightPrec fieldsFG (32 % SIZE_MOD)
                fieldsFG.length } :=
  (c9_group_validation fieldsFG [["f", "g"]] (9/10) (7/10) false 32
    (by decide) (by decide) (by decide)).1 ⟨by decide, by
      intro g hg a hag b hbg fa fb hfa hfb
      simp only [List.mem_singleton] at hg
      subst hg
      have key : ∀ x ∈ ["f", "g"], ∀ fx, lookupField fieldsFG x = some fx →
          fx.comparator = FieldComparator.BINARY ∧ fx.bitsize = 32 := by
        intro x hx fx hfx
        rcases List.mem_cons.mp hx with h | h
        · subst h
          rw [show lookupField fieldsFG "f" = some fieldBin32 from rfl] at hfx
          injection hfx with h'
          subst h'
          exact ⟨rfl, rfl⟩
        · simp only [List.mem_singleton] at h
          subst h
          rw [show lookupField fieldsFG "g" = some fieldBin32g from rfl] at hfx
          injection hfx with h'
          subst h'
          exact ⟨rfl, rfl⟩
      obtain ⟨ha1, ha2⟩ := key a hag fa hfa
      obtain ⟨hb1, hb2⟩ := key b hbg fb hfb
      exact ⟨ha1.trans hb1.symm, ha2.trans hb2.symm⟩⟩

/-! ## C10 — the derived maximum weight -/

theorem foldlMax_ge_init (l : List (String × ML_Field)) (init : ℚ) :
    init ≤ l.foldl (fun m g => max m g.2.weight) init := by
  induction l generalizing init with
  | nil => simp
  | cons f rest ih =>
    rw [List.foldl_cons]
    exact le_trans (le_max_left _ _) (ih _)

theorem foldlMax_ge_mem (l : List (String × ML_Field)) (init : ℚ) :
    ∀ p ∈ l, p.2.weight ≤ l.foldl (fun m g => max m g.2.weight) init := by
  induction l generalizing init with
  | nil => intro p hp; exact absurd hp (List.not_mem_nil p)
  | cons f rest ih =>
    intro p hp
    rw [List.foldl_cons]
    rcases List.mem_cons.mp hp with h | h
    · exact le_trans (h ▸ le_max_right init f.2.weight) (foldlMax_ge_init _ _)
    · exact ih _ p h

theorem foldlMax_eq_init_or_mem (l : List (String × ML_Field)) (init : ℚ) :
    l.foldl (fun m g => max m g.2.weight) init = init ∨
    ∃ p ∈ l, l.foldl (fun m g => max m g.2.weight) init = p.2.weight := by
  induction l generalizing init with
  | nil => left; rfl
  | cons f rest ih =>
    rw [List.foldl_cons]
    rcases ih (max init f.2.weight) with h | ⟨p, hp, hval⟩
    · rcases max_choice init f.2.weight with hm | hm
      · left; rw [h, hm]
      · right; exact ⟨f, List.mem_cons_self _ _, by rw [h, hm]⟩
    · right; exact ⟨p, List.mem_cons_of_mem _ hp, hval⟩

theorem maxWeightOf_spec (fields : List (String × ML_Field))
    (hne : fields ≠ []) :
    (∀ p ∈ fields, p.2.weight ≤ maxWeightOf fields) ∧
    ∃ p ∈ fields, maxWeightOf fields = p.2.weight := by
  cases fields with
  | nil => exact absurd rfl hne
  | cons f rest =>
    unfold maxWeightOf
    constructor
    · intro p hp
      rcases List.mem_cons.mp hp with h | h
      · exact h ▸ foldlMax_ge_init rest f.2.weight
      · exact foldlMax_ge_mem rest f.2.weight p h
    · rcases foldlMax_eq_init_or_mem rest f.2.weight with h | ⟨p, hp, hval⟩
      · exact ⟨f, List.mem_cons_self _ _, h⟩
      · exact ⟨p, List.mem_cons_of_mem _ hp, hval⟩

theorem mkEpilinkConfig_ok_shape {fields : List (String × ML_Field)}
    {groups : List (List String)} {t tt : ℚ} {mm : Bool} {bitlen : ℕ}
    {cfg : EpilinkConfig}
    (h : mkEpilinkConfig fields groups t tt mm bitlen = .ok cfg) :
    cfg = { fields := fields, exchange_groups := groups, threshold := t,
            tthreshold := tt, matching_mode := mm, bitlen := bitlen % SIZE_MOD,
            nfields := fields.length, max_weight := maxWeightOf fields,
            dice_prec := safeDicePrec fields,
            weight_prec := safeWeightPrec fields (bitlen % SIZE_MOD)
              fields.length } := by
  unfold mkEpilinkConfig at h
  split at h
  · cases hcg : checkGroups fields [] groups with
    | error e =>
      simp only [hcg] at h
      exact absurd h (by simp)
    | ok xg =>
      simp only [hcg] at h
      exact ((Except.ok.injEq _ _).mp h).symm
  · exact absurd h (by simp)

/-- **C10.** For a non-empty field map, the constructor stores in
`max_weight` the maximum of all fields' weights; `set_precisions` and
`set_ideal_precision` do not change it; and the circuit builder's
`field_weight` passes exactly this `max_weight` as the divisor of its
`rescale_weight` call. -/
theorem c10_max_weight (fields : List (String × ML_Field))
    (groups : List (List String)) (t tt : ℚ) (mm : Bool) (bitlen : ℕ)
    (cfg : EpilinkConfig)
    (hne : fields ≠ [])
    (hok : mkEpilinkConfig fields groups t tt mm bitlen = .ok cfg) :
    (∀ p ∈ fields, p.2.weight ≤ cfg.max_weight) ∧
    (∃ p ∈ fields, cfg.max_weight = p.2.weight) ∧
    (∀ a b cfg', set_precisions cfg a b = .ok cfg' →
      cfg'.max_weight = cfg.max_weight) ∧
    (∀ cfg', set_ideal_precision cfg = .ok cfg' →
      cfg'.max_weight = cfg.max_weight) ∧
    (∀ fl fr, field_weight_const cfg fl fr
      = rescale_weight ((fl.weight + fr.weight) / 2) cfg.weight_prec
          cfg.max_weight) := by
  have hshape := mkEpilinkConfig_ok_shape hok
  refine ⟨?_, ?_, ?_, ?_, ?_⟩
  · intro p hp
    rw [hshape]
    exact (maxWeightOf_spec fields hne).1 p hp
  · obtain ⟨p, hp, hval⟩ := (maxWeightOf_spec fields hne).2
    exact ⟨p, hp, by rw [hshape]; exact hval⟩
  · intro a b cfg' h
    rw [set_precisions_ok_shape h]
  · intro cfg' h
    unfold set_ideal_precision at h
    split at h
    · rw [set_precisions_ok_shape h]
    · split at h
      · rw [set_precisions_ok_shape h]
      · rw [set_precisions_ok_shape h]
  · intro fl fr
    rfl

/-- **C10 (witness).** For the single-field map of `cfgStd`, `max_weight = 1`
is the field's weight, is preserved by the precision setters, and is the
divisor of the circuit's rescaling. -/
theorem c10_max_weight_witness :
    (∀ p ∈ [("f", fieldBin32)], p.2.weight ≤ cfgStd.max_weight) ∧
    (∃ p ∈ [("f", fieldBin32)], cfgStd.max_weight = p.2.weight) ∧
    (∀ a b cfg', set_precisions cfgStd a b = .ok cfg' →
      cfg'.max_weight = cfgStd.max_weight) ∧
    (∀ cfg', set_ideal_precision cfgStd = .ok cfg' →
      cfg'.max_weight = cfgStd.max_weight) ∧
    (∀ fl fr, field_weight_const cfgStd fl fr
      = rescale_weight ((fl.weight + fr.weight) / 2) cfgStd.weight_prec
          cfgStd.max_weight) :=
  c10_max_weight [("f", fieldBin32)] [] (9/10) (7/10) false 32 cfgStd
    (by simp) rfl

end SEL
